import Mathlib

/-!
Shallow embedding of the MiniGit core (`src/MiniGit.cpp`).

The working tree is modelled as a function from path to `Option String`
(`none` means the path is absent), the object store as a function from OID
to stored bytes, and the content digest as an abstract parameter `hashFn`,
because the source uses an implementation-defined digest
(`std::hash<std::string>`).  Reading a missing file yields the empty string,
exactly as `MiniGit::readFromFile` does.
-/

/-- Reading a working-tree file; an absent path reads as the empty string,
mirroring `MiniGit::readFromFile` on a file that cannot be opened. -/
def readTreeFile (tree : String → Option String) (f : String) : String :=
  (tree f).getD ""

/-- Point update of the working tree, mirroring `MiniGit::writeToFile`. -/
def writeTreeFile (tree : String → Option String) (p c : String) :
    String → Option String :=
  fun q => if q = p then some c else tree q

/-- Removal of a working-tree path, mirroring `fs::remove`. -/
def removeTreePath (tree : String → Option String) (p : String) :
    String → Option String :=
  fun q => if q = p then none else tree q

/-- Association-list lookup used for the per-commit file maps that the
source builds as `std::map<std::string, std::string>`. -/
def lookupBlob : List (String × String) → String → Option String
  | [], _ => none
  | (p, h) :: rest, q => if q = p then some h else lookupBlob rest q

/-! ## C1: the file list built by `MiniGit::commit` -/

/-- File list built by `MiniGit::commit` (lines 668-674): every staged path
is read from the working tree (an absent path reads as the empty string,
since `readFromFile` returns `""` when the file cannot be opened) and is
paired with the digest of the bytes read.  No existence check is made. -/
def commitFileList (hashFn : String → String) (tree : String → Option String)
    (staged : List String) : List (String × String) :=
  staged.map fun f => (f, hashFn (readTreeFile tree f))

/-- File list described by the specification: the index contents projected
to the paths that exist on disk at commit time (vanished paths skipped). -/
def specCommitFileList (hashFn : String → String) (tree : String → Option String)
    (staged : List String) : List (String × String) :=
  (staged.filter fun f => (tree f).isSome).map
    fun f => (f, hashFn (readTreeFile tree f))

/-- Concrete working tree for the C1 counterexample: `a.txt` exists with
content `hello`, while the staged path `gone.txt` has vanished. -/
def exTreeC1 : String → Option String :=
  fun f => if f = "a.txt" then some "hello" else none

/-- Claim C1 is false on the code: with index `[a.txt, gone.txt]` and
`gone.txt` missing from the working tree, the commit's file list is not the
index projected to existing paths — the vanished path is kept, paired with
the digest of the empty string, rather than silently skipped. -/
theorem commit_keeps_vanished_path :
    commitFileList (fun s => s) exTreeC1 ["a.txt", "gone.txt"] ≠
      specCommitFileList (fun s => s) exTreeC1 ["a.txt", "gone.txt"] := by
  decide

/-- Claim C1 (amended): for every `commit` run, the resulting commit's path
list equals the whole index (no projection to existing paths), and a staged
path that no longer exists on disk is included with the digest of the empty
string rather than skipped. -/
theorem commitFileList_is_full_index (hashFn : String → String)
    (tree : String → Option String) (staged : List String) :
    (commitFileList hashFn tree staged).map Prod.fst = staged ∧
      ∀ f ∈ staged, tree f = none →
        (f, hashFn "") ∈ commitFileList hashFn tree staged := by
  constructor
  · simp [commitFileList, Function.comp_def]
  · intro f hf hnone
    have : (f, hashFn (readTreeFile tree f)) ∈ commitFileList hashFn tree staged :=
      List.mem_map_of_mem _ hf
    simpa [readTreeFile, hnone] using this

/-- Witness for the amended C1 theorem at the concrete C1 repository. -/
theorem commitFileList_is_full_index_witness :
    (commitFileList (fun s => s) exTreeC1 ["a.txt", "gone.txt"]).map Prod.fst =
        ["a.txt", "gone.txt"] ∧
      ("gone.txt", "") ∈ commitFileList (fun s => s) exTreeC1 ["a.txt", "gone.txt"] :=
  ⟨(commitFileList_is_full_index (fun s => s) exTreeC1 ["a.txt", "gone.txt"]).1,
    (commitFileList_is_full_index (fun s => s) exTreeC1 ["a.txt", "gone.txt"]).2
      "gone.txt" (by decide) rfl⟩

/-! ## C4: conflict-marker bytes -/

/-- Conflict-marker bytes written by `MiniGit::performThreeWayMerge`
(lines 900-907): a newline is inserted before `=======` and before
`>>>>>>>` unconditionally. -/
def mergeConflictContent (currentContent targetContent branchName : String) :
    String :=
  "<<<<<<< HEAD\n" ++ currentContent ++ "\n=======\n" ++ targetContent ++
    "\n>>>>>>> " ++ branchName ++ "\n"

/-- Whether a byte string ends with a newline character. -/
def hasTrailingNewline (s : String) : Bool :=
  s.data.getLast? = some '\n'

/-- Newline normalization described by the specification: append a newline
only when the side's content is non-empty and lacks a trailing newline. -/
def normalizeSide (s : String) : String :=
  if s ≠ "" ∧ hasTrailingNewline s = false then s ++ "\n" else s

/-- Conflict-marker bytes as the specification (claim C4) describes them. -/
def specConflictContent (currentContent targetContent branchName : String) :
    String :=
  "<<<<<<< HEAD\n" ++ normalizeSide currentContent ++ "=======\n" ++
    normalizeSide targetContent ++ ">>>>>>> " ++ branchName ++ "\n"

/-- Conflict-marker bytes with the amended normalization: a newline is
always inserted after each side's content, even when that content is empty
or already ends with a newline. -/
def specConflictContentAmended (currentContent targetContent branchName : String) :
    String :=
  "<<<<<<< HEAD\n" ++ (currentContent ++ "\n") ++ "=======\n" ++
    (targetContent ++ "\n") ++ ">>>>>>> " ++ branchName ++ "\n"

/-- Claim C4 is false on the code: when both sides already end with a
newline (ours `M\n`, theirs `F\n`), the file written by the code contains a
blank line before each separator, so it differs from the bytes the
specification prescribes. -/
theorem conflict_content_not_normalized :
    mergeConflictContent "M\n" "F\n" "feat" ≠ specConflictContent "M\n" "F\n" "feat" := by
  decide

/-- Claim C4 (amended): for every conflicted path the bytes written are
exactly the marker format in which a newline is always appended to each
side's content, regardless of whether that content is empty or already ends
with a newline. -/
theorem mergeConflictContent_eq_amended (currentContent targetContent branchName : String) :
    mergeConflictContent currentContent targetContent branchName =
      specConflictContentAmended currentContent targetContent branchName := by
  simp [mergeConflictContent, specConflictContentAmended, String.append_assoc]

/-! ## C9: the modified-after-staging test in `MiniGit::status` -/

/-- The modified-after-staging test of `MiniGit::status` (lines 299-307)
for a staged path present in the working directory: the current content is
hashed, the object-store bytes under that same hash are read back (a
missing object reads as the empty string), and the file is reported
modified when the two byte strings differ. -/
def statusModifiedCheck (objects : String → Option String)
    (hashFn : String → String) (content : String) : Bool :=
  if content = (objects (hashFn content)).getD "" then false else true

/-- Concrete object store for the C9 counterexample: only the blob of the
content `old` (stored when the file was staged) is present; the digest is
modelled as the identity. -/
def exObjectsC9 : String → Option String :=
  fun oid => if oid = "old" then some "old" else none

/-- Claim C9 is false on the code: when a staged file is edited from `old`
to `new` after staging, the digest of the current content is absent from
the object store, the read-back yields the empty string, and status DOES
report the file as modified — it is not true that status never reports a
staged file as modified. -/
theorem status_reports_modified :
    statusModifiedCheck exObjectsC9 (fun s => s) "new" = true := by
  decide

/-- Claim C9 (amended): status compares the current content against the
store's bytes under the hash of that same current content, so a staged
file whose current blob is present verbatim in the store (as immediately
after `add`) is never reported modified, while a non-empty content whose
hash is absent from the store IS reported modified. -/
theorem statusModifiedCheck_amended (objects : String → Option String)
    (hashFn : String → String) (content : String) :
    (objects (hashFn content) = some content →
        statusModifiedCheck objects hashFn content = false) ∧
      (objects (hashFn content) = none → content ≠ "" →
        statusModifiedCheck objects hashFn content = true) := by
  constructor
  · intro h
    simp [statusModifiedCheck, h]
  · intro h hne
    simp [statusModifiedCheck, h, hne]

/-- Witness for the amended C9 theorem: the unmodified staged file `old` is
not reported, and the edited content `new` is reported. -/
theorem statusModifiedCheck_amended_witness :
    statusModifiedCheck exObjectsC9 (fun s => s) "old" = false ∧
      statusModifiedCheck exObjectsC9 (fun s => s) "new" = true :=
  ⟨(statusModifiedCheck_amended exObjectsC9 (fun s => s) "old").1 rfl,
    (statusModifiedCheck_amended exObjectsC9 (fun s => s) "new").2 rfl (by decide)⟩

/-! ## C5: working-tree reconciliation in `MiniGit::checkout` -/

/-- Deletion phase of `MiniGit::checkout` (lines 741-748): every path of
the current commit's file map that is absent from the target's file map is
removed from the working tree. -/
def checkoutDeletions (toFiles fromFiles : List (String × String))
    (tree : String → Option String) : String → Option String :=
  fromFiles.foldl
    (fun t pr => if (lookupBlob toFiles pr.1).isSome then t else removeTreePath t pr.1)
    tree

/-- Write phase of `MiniGit::checkout` (lines 751-755): every path of the
target's file map is overwritten with its blob content. -/
def checkoutWrites (objects : String → String) (toFiles : List (String × String))
    (tree : String → Option String) : String → Option String :=
  toFiles.foldl (fun t pr => writeTreeFile t pr.1 (objects pr.2)) tree

/-- Working-tree reconciliation of `MiniGit::checkout`: deletions first,
then writes, in the order the source performs them. -/
def checkoutTree (objects : String → String)
    (fromFiles toFiles : List (String × String))
    (tree : String → Option String) : String → Option String :=
  checkoutWrites objects toFiles (checkoutDeletions toFiles fromFiles tree)

theorem checkoutWrites_apply_of_not_mem (objects : String → String)
    (toFiles : List (String × String)) (tree : String → Option String)
    (p : String) (hp : p ∉ toFiles.map Prod.fst) :
    checkoutWrites objects toFiles tree p = tree p := by
  induction toFiles generalizing tree with
  | nil => rfl
  | cons pr rest ih =>
    simp only [List.map_cons, List.mem_cons, not_or] at hp
    simp only [checkoutWrites, List.foldl_cons]
    rw [show (List.foldl (fun t pr => writeTreeFile t pr.1 (objects pr.2))
        (writeTreeFile tree pr.1 (objects pr.2)) rest) =
        checkoutWrites objects rest (writeTreeFile tree pr.1 (objects pr.2)) from rfl]
    rw [ih _ hp.2]
    simp [writeTreeFile, hp.1]

theorem checkoutWrites_apply_of_mem (objects : String → String)
    (toFiles : List (String × String)) (tree : String → Option String)
    (p h : String) (hnd : (toFiles.map Prod.fst).Nodup) (hmem : (p, h) ∈ toFiles) :
    checkoutWrites objects toFiles tree p = some (objects h) := by
  induction toFiles generalizing tree with
  | nil => cases hmem
  | cons pr rest ih =>
    simp only [List.map_cons, List.nodup_cons] at hnd
    rcases List.mem_cons.1 hmem with heq | hrest
    · subst heq
      have hnot : p ∉ rest.map Prod.fst := hnd.1
      simp only [checkoutWrites, List.foldl_cons]
      rw [show (List.foldl (fun t pr => writeTreeFile t pr.1 (objects pr.2))
          (writeTreeFile tree p (objects h)) rest) =
          checkoutWrites objects rest (writeTreeFile tree p (objects h)) from rfl]
      rw [checkoutWrites_apply_of_not_mem objects rest _ p hnot]
      simp [writeTreeFile]
    · simp only [checkoutWrites, List.foldl_cons]
      exact ih _ hnd.2 hrest

theorem lookupBlob_eq_none_iff (l : List (String × String)) (p : String) :
    lookupBlob l p = none ↔ p ∉ l.map Prod.fst := by
  induction l with
  | nil => simp [lookupBlob]
  | cons pr rest ih =>
    obtain ⟨q, h⟩ := pr
    by_cases hpq : p = q
    · subst hpq
      simp [lookupBlob]
    · simp [lookupBlob, hpq, ih]

theorem checkoutDeletions_apply_of_none (toFiles fromFiles : List (String × String))
    (tree : String → Option String) (p : String) (htree : tree p = none) :
    checkoutDeletions toFiles fromFiles tree p = none := by
  induction fromFiles generalizing tree with
  | nil => exact htree
  | cons pr rest ih =>
    simp only [checkoutDeletions, List.foldl_cons]
    by_cases hmem : (lookupBlob toFiles pr.1).isSome
    · simp only [hmem, if_pos]
      exact ih tree htree
    · simp only [hmem, if_neg, Bool.false_eq_true, not_false_iff]
      refine ih _ ?_
      simp [removeTreePath, htree]

theorem checkoutDeletions_removes (toFiles fromFiles : List (String × String))
    (tree : String → Option String) (p h : String)
    (hmem : (p, h) ∈ fromFiles) (habs : lookupBlob toFiles p = none) :
    checkoutDeletions toFiles fromFiles tree p = none := by
  induction fromFiles generalizing tree with
  | nil => cases hmem
  | cons pr rest ih =>
    rcases List.mem_cons.1 hmem with heq | hrest
    · subst heq
      simp only [checkoutDeletions, List.foldl_cons, habs, Option.isSome_none,
        Bool.false_eq_true, if_neg, not_false_iff]
      exact checkoutDeletions_apply_of_none toFiles rest _ p (by simp [removeTreePath])
    · simp only [checkoutDeletions, List.foldl_cons]
      by_cases hcase : (lookupBlob toFiles pr.1).isSome
      · simp only [hcase, if_pos]
        exact ih tree hrest
      · simp only [hcase, Bool.false_eq_true, if_neg, not_false_iff]
        exact ih _ hrest

/-- Claim C5 (confirmed): in the checkout reconciliation, deletions precede
writes, so every path of the target file map ends with its target blob
content (in particular a path present in both maps is overwritten, not
deleted), and every path of the current file map that is absent from the
target file map is removed. -/
theorem checkout_deletions_precede_writes (objects : String → String)
    (fromFiles toFiles : List (String × String)) (tree : String → Option String)
    (hnd : (toFiles.map Prod.fst).Nodup) :
    (∀ p h, (p, h) ∈ toFiles →
        checkoutTree objects fromFiles toFiles tree p = some (objects h)) ∧
      ∀ p h, (p, h) ∈ fromFiles → lookupBlob toFiles p = none →
        checkoutTree objects fromFiles toFiles tree p = none := by
  constructor
  · intro p h hmem
    exact checkoutWrites_apply_of_mem objects toFiles _ p h hnd hmem
  · intro p h hmem habs
    have hnotin : p ∉ toFiles.map Prod.fst := (lookupBlob_eq_none_iff toFiles p).1 habs
    rw [checkoutTree, checkoutWrites_apply_of_not_mem objects toFiles _ p hnotin]
    exact checkoutDeletions_removes toFiles fromFiles tree p h hmem habs

/-- Object store for the C5 witness. -/
def exObjectsC5 : String → String :=
  fun h => if h = "h1" then "one" else if h = "h2" then "two" else ""

/-- Pre-checkout working tree for the C5 witness: `a.txt` holds the current
branch's content and `old.txt` is only in the current commit. -/
def exTreeC5 : String → Option String :=
  fun f => if f = "a.txt" then some "zero" else if f = "old.txt" then some "stale" else none

/-- Witness for the C5 theorem: `a.txt`, present in both commits with
different contents, ends up with the target content `one`, and `old.txt`,
absent from the target, is deleted. -/
theorem checkout_deletions_precede_writes_witness :
    checkoutTree exObjectsC5 [("a.txt", "h0"), ("old.txt", "hx")]
        [("a.txt", "h1"), ("b.txt", "h2")] exTreeC5 "a.txt" = some "one" ∧
      checkoutTree exObjectsC5 [("a.txt", "h0"), ("old.txt", "hx")]
        [("a.txt", "h1"), ("b.txt", "h2")] exTreeC5 "old.txt" = none :=
  ⟨((checkout_deletions_precede_writes exObjectsC5 [("a.txt", "h0"), ("old.txt", "hx")]
      [("a.txt", "h1"), ("b.txt", "h2")] exTreeC5 (by decide)).1 "a.txt" "h1" (by decide)).trans
        (by decide),
    (checkout_deletions_precede_writes exObjectsC5 [("a.txt", "h0"), ("old.txt", "hx")]
      [("a.txt", "h1"), ("b.txt", "h2")] exTreeC5 (by decide)).2 "old.txt" "hx"
        (by decide) rfl⟩

/-! ## C8: HEAD and branch consistency after commit and fast-forward -/

/-- The whitespace characters that `MiniGit::getHEAD` trims from the end of
the `HEAD` file content. -/
def isRefWhitespace (c : Char) : Bool :=
  c == ' ' || c == '\n' || c == '\r' || c == '\t'

/-- Trailing-whitespace trim, mirroring `erase(find_last_not_of + 1)`. -/
def rtrimChars (cs : List Char) : List Char :=
  (cs.reverse.dropWhile isRefWhitespace).reverse

/-- The characters after the first `:`, mirroring `find(':')` plus
`substr(colon + 1)`; `none` when no colon occurs. -/
def afterFirstColon : List Char → Option (List Char)
  | [] => none
  | c :: cs => if c = ':' then some cs else afterFirstColon cs

/-- `MiniGit::getHEAD` (lines 491-499): empty file reads as the empty OID;
otherwise trailing whitespace is trimmed and the substring after the first
colon is returned (empty when there is no colon). -/
def getHEADContent (content : String) : String :=
  if content = "" then ""
  else
    match afterFirstColon (rtrimChars content.data) with
    | some rest => String.mk rest
    | none => ""

/-- The reference state of the repository: the current branch name, the
branch map and the bytes of the `HEAD` file. -/
structure RefState where
  currentBranch : String
  branches : String → Option String
  headFileContent : String

/-- Point update of the branch map. -/
def setBranch (branches : String → Option String) (name oid : String) :
    String → Option String :=
  fun q => if q = name then some oid else branches q

/-- `MiniGit::updateHEAD` (lines 484-488): rewrite the `HEAD` file as
`currentBranch:commitHash` and point the current branch at the hash. -/
def updateHEAD (st : RefState) (commitHash : String) : RefState :=
  { st with
      headFileContent := st.currentBranch ++ ":" ++ commitHash,
      branches := setBranch st.branches st.currentBranch commitHash }

/-- The reference movement performed by a successful `MiniGit::commit`. -/
def commitHeadStep (st : RefState) (newCommitHash : String) : RefState :=
  updateHEAD st newCommitHash

/-- The reference movement performed by `MiniGit::fastForwardMerge`
(lines 588-589): the branch map entry is set first, then `updateHEAD`
rewrites both again. -/
def fastForwardHeadStep (st : RefState) (newHead : String) : RefState :=
  updateHEAD { st with branches := setBranch st.branches st.currentBranch newHead } newHead

theorem afterFirstColon_append (pre rest : List Char) (hpre : ':' ∉ pre) :
    afterFirstColon (pre ++ ':' :: rest) = some rest := by
  induction pre with
  | nil => simp [afterFirstColon]
  | cons c cs ih =>
    simp only [List.mem_cons, not_or] at hpre
    simp only [List.cons_append, afterFirstColon]
    rw [if_neg (fun h => hpre.1 h.symm)]
    exact ih hpre.2

theorem rtrimChars_concat_of_not_ws (cs : List Char) (c : Char)
    (hc : isRefWhitespace c = false) :
    rtrimChars (cs ++ [c]) = cs ++ [c] := by
  simp [rtrimChars, List.dropWhile_cons, hc]

theorem getHEADContent_of_update (branch oid : String)
    (hb : ':' ∉ branch.data)
    (hoid : ∀ c ∈ oid.data, isRefWhitespace c = false) :
    getHEADContent (branch ++ ":" ++ oid) = oid := by
  have hdata : (branch ++ ":" ++ oid).data = branch.data ++ ':' :: oid.data := by
    simp [String.data_append]
  have hne : branch ++ ":" ++ oid ≠ "" := by
    intro h
    have h2 : (branch ++ ":" ++ oid).data = ([] : List Char) := by rw [h]
    rw [hdata] at h2
    simp at h2
  have htrim : rtrimChars (branch.data ++ ':' :: oid.data) =
      branch.data ++ ':' :: oid.data := by
    rcases List.eq_nil_or_concat oid.data with hnil | ⟨pre, c, hconcat⟩
    · rw [hnil]
      have h3 := rtrimChars_concat_of_not_ws branch.data ':' (by decide)
      simpa using h3
    · have hcws : isRefWhitespace c = false :=
        hoid c (by rw [hconcat]; simp [List.concat_eq_append])
      rw [hconcat]
      have h3 := rtrimChars_concat_of_not_ws (branch.data ++ ':' :: pre) c hcws
      simpa [List.concat_eq_append] using h3
  simp only [getHEADContent, if_neg hne, hdata, htrim,
    afterFirstColon_append branch.data oid.data hb]

/-- Claim C8 (confirmed): after a successful commit and after a
fast-forward merge, the commit OID that `getHEAD` parses back from the
`HEAD` file equals the branch map's entry for the current branch, provided
the branch name contains no colon and the OID contains no trailing
whitespace characters (both guaranteed for hex digests and legal branch
names). -/
theorem head_matches_branch_after_commit_and_ff (st : RefState) (oid : String)
    (hb : ':' ∉ st.currentBranch.data)
    (hoid : ∀ c ∈ oid.data, isRefWhitespace c = false) :
    (commitHeadStep st oid).branches (commitHeadStep st oid).currentBranch =
        some (getHEADContent (commitHeadStep st oid).headFileContent) ∧
      (fastForwardHeadStep st oid).branches (fastForwardHeadStep st oid).currentBranch =
        some (getHEADContent (fastForwardHeadStep st oid).headFileContent) := by
  constructor
  · simp [commitHeadStep, updateHEAD, setBranch,
      getHEADContent_of_update st.currentBranch oid hb hoid]
  · simp [fastForwardHeadStep, updateHEAD, setBranch,
      getHEADContent_of_update st.currentBranch oid hb hoid]

/-- Reference state for the C8 witness: fresh repository on `master`. -/
def exRefState : RefState :=
  { currentBranch := "master",
    branches := fun n => if n = "master" then some "" else none,
    headFileContent := "master:" }

/-! ## The merge engine: `MiniGit::performThreeWayMerge` and
`MiniGit::fastForwardMerge` (claims C2 and C3) -/

/-- Byte-wise lexicographic comparison of character lists, mirroring the
ordering of `std::string` used by `std::set` and `std::map`. -/
def charListLe : List Char → List Char → Bool
  | [], _ => true
  | _ :: _, [] => false
  | a :: as, b :: bs =>
    if a.toNat < b.toNat then true
    else if b.toNat < a.toNat then false
    else charListLe as bs

/-- Lexicographic string comparison. -/
def stringLe (a b : String) : Bool :=
  charListLe a.data b.data

/-- Ordered insertion for the sorted iteration order of `std::set`. -/
def insertSorted (x : String) : List String → List String
  | [] => [x]
  | y :: ys => if stringLe x y then x :: y :: ys else y :: insertSorted x ys

/-- Sorting a list of strings, modelling `std::set` iteration order. -/
def sortStrings : List String → List String
  | [] => []
  | x :: xs => insertSorted x (sortStrings xs)

/-- The path set iterated by the three-way merge: the union of the path
sets of base, ours and theirs, each path once, in sorted order. -/
def mergeAllFiles (base cur tgt : List (String × String)) : List String :=
  sortStrings ((base.map Prod.fst ++ cur.map Prod.fst ++ tgt.map Prod.fst).dedup)

/-- Per-path outcome of the three-way merge decision cascade. -/
inductive MergeDecision where
  | keep (h : String)
  | drop
  | conflict
deriving DecidableEq

/-- The per-path decision cascade of `MiniGit::performThreeWayMerge`
(lines 855-896), with the empty string standing for an absent entry, in the
order the source tests the cases. -/
def classifyPath (baseHash currentHash targetHash : String) : MergeDecision :=
  if currentHash = targetHash then
    if currentHash ≠ "" then .keep currentHash else .drop
  else if baseHash = targetHash ∧ baseHash ≠ currentHash then
    if currentHash ≠ "" then .keep currentHash else .drop
  else if baseHash = currentHash ∧ baseHash ≠ targetHash then
    if targetHash ≠ "" then .keep targetHash else .drop
  else if baseHash = "" ∧ currentHash = targetHash ∧ currentHash ≠ "" then
    .keep currentHash
  else if baseHash ≠ "" ∧ currentHash = "" ∧ targetHash = "" then
    .drop
  else .conflict

/-- Accumulator of the merge loop: the merged file map, the conflicted
paths, and the working tree (conflict markers are written during the
loop). -/
structure MergeLoopState where
  merged : List (String × String)
  conflicts : List String
  tree : String → Option String

/-- One iteration of the merge loop of `MiniGit::performThreeWayMerge`. -/
def mergeLoopStep (objects : String → String) (base cur tgt : List (String × String))
    (branchName : String) (st : MergeLoopState) (filename : String) : MergeLoopState :=
  let baseHash := (lookupBlob base filename).getD ""
  let currentHash := (lookupBlob cur filename).getD ""
  let targetHash := (lookupBlob tgt filename).getD ""
  match classifyPath baseHash currentHash targetHash with
  | .keep h => { st with merged := st.merged ++ [(filename, h)] }
  | .drop => st
  | .conflict =>
    let currentContent := if currentHash = "" then "" else objects currentHash
    let targetContent := if targetHash = "" then "" else objects targetHash
    { st with
        conflicts := st.conflicts ++ [filename],
        tree := writeTreeFile st.tree filename
          (mergeConflictContent currentContent targetContent branchName) }

/-- The whole per-path loop of `MiniGit::performThreeWayMerge`. -/
def mergeLoop (objects : String → String) (base cur tgt : List (String × String))
    (branchName : String) (tree0 : String → Option String) : MergeLoopState :=
  (mergeAllFiles base cur tgt).foldl (mergeLoopStep objects base cur tgt branchName)
    { merged := [], conflicts := [], tree := tree0 }

/-- Externally visible outcome of a merge run: the working tree, the index,
the `MERGE_HEAD` file content, and the file list of the commit the run
created, if any. -/
structure MergeResult where
  tree : String → Option String
  staged : List String
  mergeHead : Option String
  createdCommitFiles : Option (List (String × String))

/-- The conflict-free tail of `MiniGit::performThreeWayMerge`
(lines 919-941): write and stage the merged files, remove the current
commit's paths that are absent from the merge result, then run the commit
engine (which clears the index and removes `MERGE_HEAD`); an empty merged
set makes the commit engine bail out with nothing-to-commit. -/
def mergeCommitPhase (hashFn objects : String → String)
    (cur : List (String × String)) (ls : MergeLoopState)
    (mergeHead0 : Option String) : MergeResult :=
  let tree1 := ls.merged.foldl (fun t pr => writeTreeFile t pr.1 (objects pr.2)) ls.tree
  let tree2 := cur.foldl
    (fun t pr => if (lookupBlob ls.merged pr.1).isNone then removeTreePath t pr.1 else t)
    tree1
  let staged1 := ls.merged.map Prod.fst
  if staged1 = [] then
    { tree := tree2, staged := staged1, mergeHead := mergeHead0, createdCommitFiles := none }
  else
    { tree := tree2, staged := [], mergeHead := none,
      createdCommitFiles := some (commitFileList hashFn tree2 staged1) }

/-- `MiniGit::performThreeWayMerge` (lines 833-943): run the per-path loop;
on any conflict write only the target-tip OID into `MERGE_HEAD`, leave the
index as it was and create no commit; otherwise run the commit phase. -/
def performThreeWayMerge (hashFn objects : String → String)
    (base cur tgt : List (String × String)) (branchName targetHead : String)
    (tree0 : String → Option String) (staged0 : List String)
    (mergeHead0 : Option String) : MergeResult :=
  if (mergeLoop objects base cur tgt branchName tree0).conflicts ≠ [] then
    { tree := (mergeLoop objects base cur tgt branchName tree0).tree,
      staged := staged0, mergeHead := some targetHead, createdCommitFiles := none }
  else
    mergeCommitPhase hashFn objects cur
      (mergeLoop objects base cur tgt branchName tree0) mergeHead0

/-- Object store for the merge counterexamples and witnesses. -/
def exObjectsMerge : String → String :=
  fun h =>
    if h = "hA" then "A\n" else if h = "hM" then "M\n" else if h = "hF" then "F\n" else ""

/-- Claim C2 is false on the code: in a conflicted merge of branch `feat`
(base `a.txt = A`, ours `a.txt = M`, theirs `a.txt = F`) the conflicted
path `a.txt` does exist in the working tree after the merge, yet the index
stays empty — the code never stages the involved paths (and `MERGE_HEAD`
receives only the target-tip OID, not the (branch, ours, theirs)
triple). -/
theorem merge_conflict_stages_nothing :
    ((performThreeWayMerge (fun s => s) exObjectsMerge [("a.txt", "hA")]
        [("a.txt", "hM")] [("a.txt", "hF")] "feat" "tgtOid"
        (fun f => if f = "a.txt" then some "M\n" else none) [] none).tree "a.txt").isSome
        = true ∧
      (performThreeWayMerge (fun s => s) exObjectsMerge [("a.txt", "hA")]
        [("a.txt", "hM")] [("a.txt", "hF")] "feat" "tgtOid"
        (fun f => if f = "a.txt" then some "M\n" else none) [] none).staged = [] := by
  decide

/-- Claim C2 (amended): whenever the three-way merge finds at least one
conflicted path, it produces no commit, leaves the index exactly as it was
(it stages nothing), and persists `MERGE_HEAD` containing only the
target-tip OID — not the (branch, ours, theirs) triple. -/
theorem merge_conflict_outcome (hashFn objects : String → String)
    (base cur tgt : List (String × String)) (branchName targetHead : String)
    (tree0 : String → Option String) (staged0 : List String)
    (mergeHead0 : Option String)
    (hc : (mergeLoop objects base cur tgt branchName tree0).conflicts ≠ []) :
    (performThreeWayMerge hashFn objects base cur tgt branchName targetHead
          tree0 staged0 mergeHead0).createdCommitFiles = none ∧
      (performThreeWayMerge hashFn objects base cur tgt branchName targetHead
          tree0 staged0 mergeHead0).staged = staged0 ∧
      (performThreeWayMerge hashFn objects base cur tgt branchName targetHead
          tree0 staged0 mergeHead0).mergeHead = some targetHead := by
  unfold performThreeWayMerge
  rw [if_pos hc]
  exact ⟨rfl, rfl, rfl⟩

/-- Witness for the amended C2 theorem at the concrete conflicted merge. -/
theorem merge_conflict_outcome_witness :
    (performThreeWayMerge (fun s => s) exObjectsMerge [("a.txt", "hA")]
          [("a.txt", "hM")] [("a.txt", "hF")] "feat" "tgtOid"
          (fun f => if f = "a.txt" then some "M\n" else none) [] none).createdCommitFiles
        = none ∧
      (performThreeWayMerge (fun s => s) exObjectsMerge [("a.txt", "hA")]
          [("a.txt", "hM")] [("a.txt", "hF")] "feat" "tgtOid"
          (fun f => if f = "a.txt" then some "M\n" else none) [] none).staged = [] ∧
      (performThreeWayMerge (fun s => s) exObjectsMerge [("a.txt", "hA")]
          [("a.txt", "hM")] [("a.txt", "hF")] "feat" "tgtOid"
          (fun f => if f = "a.txt" then some "M\n" else none) [] none).mergeHead
        = some "tgtOid" :=
  merge_conflict_outcome (fun s => s) exObjectsMerge [("a.txt", "hA")]
    [("a.txt", "hM")] [("a.txt", "hF")] "feat" "tgtOid"
    (fun f => if f = "a.txt" then some "M\n" else none) [] none (by decide)

/-- Result of `MiniGit::fastForwardMerge`: the updated references and the
updated working tree. -/
structure FastForwardResult where
  refs : RefState
  tree : String → Option String

/-- `MiniGit::fastForwardMerge` (lines 587-598): point the current branch
and `HEAD` at the new tip, then write every file of the tip commit into the
working tree; nothing is ever removed from the working tree. -/
def fastForwardMerge (objects : String → String) (st : RefState) (newHead : String)
    (newHeadFiles : List (String × String)) (tree : String → Option String) :
    FastForwardResult :=
  { refs := fastForwardHeadStep st newHead,
    tree :=
      if newHead = "" then tree
      else newHeadFiles.foldl (fun t pr => writeTreeFile t pr.1 (objects pr.2)) tree }

/-- Claim C3 is false on the code: fast-forwarding to a tip whose file map
is `[new.txt]`, from a pre-merge `HEAD` whose file map contains `old.txt`,
leaves `old.txt` (content `stale`) in the working tree — the code has no
deletion loop, so the path is not removed as checkout (C5) semantics would
require. -/
theorem fast_forward_keeps_stale_path :
    ¬ ((fastForwardMerge exObjectsC5 exRefState "tipOid" [("new.txt", "h1")]
        exTreeC5).tree "old.txt" = none) := by
  decide

/-- Claim C3 (amended): every fast-forward merge advances the current
branch pointer and `HEAD` to the target tip and overwrites every path of
the target commit with its blob content, but it removes nothing: any path
outside the target's file map — in particular a path of the pre-merge
`HEAD`'s file map absent from the target commit — keeps its old working
tree state. -/
theorem fast_forward_outcome (objects : String → String) (st : RefState)
    (newHead : String) (newHeadFiles : List (String × String))
    (tree : String → Option String)
    (hb : ':' ∉ st.currentBranch.data)
    (hoid : ∀ c ∈ newHead.data, isRefWhitespace c = false)
    (hne : newHead ≠ "")
    (hnd : (newHeadFiles.map Prod.fst).Nodup) :
    (fastForwardMerge objects st newHead newHeadFiles tree).refs.branches
        st.currentBranch = some newHead ∧
      getHEADContent
        (fastForwardMerge objects st newHead newHeadFiles tree).refs.headFileContent
        = newHead ∧
      (∀ p h, (p, h) ∈ newHeadFiles →
        (fastForwardMerge objects st newHead newHeadFiles tree).tree p =
          some (objects h)) ∧
      ∀ p, p ∉ newHeadFiles.map Prod.fst →
        (fastForwardMerge objects st newHead newHeadFiles tree).tree p = tree p := by
  refine ⟨?_, ?_, ?_, ?_⟩
  · simp [fastForwardMerge, fastForwardHeadStep, updateHEAD, setBranch]
  · simp [fastForwardMerge, fastForwardHeadStep, updateHEAD,
      getHEADContent_of_update st.currentBranch newHead hb hoid]
  · intro p h hmem
    simp only [fastForwardMerge, if_neg hne]
    exact checkoutWrites_apply_of_mem objects newHeadFiles tree p h hnd hmem
  · intro p hp
    simp only [fastForwardMerge, if_neg hne]
    exact checkoutWrites_apply_of_not_mem objects newHeadFiles tree p hp

/-- Witness for the amended C3 theorem: the tip file `new.txt` is written,
and the stale path `old.txt` keeps its old content. -/
theorem fast_forward_outcome_witness :
    (fastForwardMerge exObjectsC5 exRefState "tipOid" [("new.txt", "h1")]
        exTreeC5).refs.branches "master" = some "tipOid" ∧
      getHEADContent (fastForwardMerge exObjectsC5 exRefState "tipOid"
        [("new.txt", "h1")] exTreeC5).refs.headFileContent = "tipOid" ∧
      (fastForwardMerge exObjectsC5 exRefState "tipOid" [("new.txt", "h1")]
        exTreeC5).tree "new.txt" = some "one" ∧
      (fastForwardMerge exObjectsC5 exRefState "tipOid" [("new.txt", "h1")]
        exTreeC5).tree "old.txt" = some "stale" := by
  have h := fast_forward_outcome exObjectsC5 exRefState "tipOid" [("new.txt", "h1")]
    exTreeC5 (by decide) (by decide) (by decide) (by decide)
  exact ⟨h.1, h.2.1,
    (h.2.2.1 "new.txt" "h1" (by decide)).trans (by decide),
    (h.2.2.2 "old.txt" (by decide)).trans (by decide)⟩

/-- Witness for the C8 theorem at a concrete commit hash. -/
theorem head_matches_branch_witness :
    (commitHeadStep exRefState "abc1f2").branches
        (commitHeadStep exRefState "abc1f2").currentBranch =
        some (getHEADContent (commitHeadStep exRefState "abc1f2").headFileContent) ∧
      (fastForwardHeadStep exRefState "abc1f2").branches
        (fastForwardHeadStep exRefState "abc1f2").currentBranch =
        some (getHEADContent (fastForwardHeadStep exRefState "abc1f2").headFileContent) :=
  head_matches_branch_after_commit_and_ff exRefState "abc1f2" (by decide) (by decide)

/-! ## The diff engine: `MiniGit::splitLines`, `MiniGit::computeLCS` and
`MiniGit::showUnifiedDiff` (claims C7 and C10) -/

/-- `std::getline` splitting on a character list: each `\n` ends a line,
a final fragment without `\n` is still a line, and a trailing `\n` does not
open an empty final line. -/
def splitLinesChars : List Char → List (List Char)
  | [] => []
  | c :: cs =>
    if c = '\n' then [] :: splitLinesChars cs
    else
      match splitLinesChars cs with
      | [] => [[c]]
      | l :: ls => (c :: l) :: ls

/-- `MiniGit::splitLines` (lines 27-35). -/
def splitLines (text : String) : List String :=
  (splitLinesChars text.data).map String.mk

/-- One row of the LCS length table of `MiniGit::computeLCS`, built from
the previous row: `diag`, `up` and `left` are `dp[i-1][j-1]`, `dp[i-1][j]`
and `dp[i][j-1]` of the standard recurrence. -/
def lcsRowFrom (aLine : String) : List String → List Nat → Nat → List Nat
  | [], _, _ => []
  | _ :: _, [], _ => []
  | bLine :: bs, diag :: rest, left =>
    let up := rest.headD 0
    let cur := if aLine = bLine then diag + 1 else max up left
    cur :: lcsRowFrom aLine bs rest cur

/-- The full `(m+1) × (n+1)` LCS length table of `MiniGit::computeLCS`
(lines 38-53): row 0 and column 0 are zero, and row `i` is filled from row
`i-1` with the standard recurrence. -/
def lcsTableRows (as bs : List String) : List (List Nat) :=
  as.foldl (fun acc aLine => acc ++ [0 :: lcsRowFrom aLine bs (acc.getLastD []) 0])
    [List.replicate (bs.length + 1) 0]

/-- Table access `lcs[i][j]`. -/
def lcsAt (as bs : List String) (i j : Nat) : Nat :=
  ((lcsTableRows as bs).getD i []).getD j 0

/-- One emitted line of the edit script (matching lines emit nothing). -/
inductive DiffOp where
  | del (line : String)
  | add (line : String)
deriving DecidableEq

/-- The emission loop of `MiniGit::showUnifiedDiff` (lines 71-89), with an
explicit fuel bound: unchanged lines advance both cursors silently, a `-`
line is emitted when old lines remain and either the new side is exhausted
or `lcs[i][j+1] ≥ lcs[i+1][j]`, and a `+` line is emitted otherwise. -/
def diffWalkF (a b : List String) (lcs : Nat → Nat → Nat) :
    Nat → Nat → Nat → List DiffOp
  | 0, _, _ => []
  | fuel + 1, i, j =>
    if i < a.length ∨ j < b.length then
      if i < a.length ∧ j < b.length ∧ a.getD i "" = b.getD j "" then
        diffWalkF a b lcs fuel (i + 1) (j + 1)
      else if i < a.length ∧ (¬ j < b.length ∨ lcs (i + 1) j ≤ lcs i (j + 1)) then
        DiffOp.del (a.getD i "") :: diffWalkF a b lcs fuel (i + 1) j
      else
        DiffOp.add (b.getD j "") :: diffWalkF a b lcs fuel i (j + 1)
    else []

/-- The edit script emitted by `MiniGit::showUnifiedDiff`: nothing when the
two line sequences are equal, the walk over the LCS table otherwise.  The
fuel `m + n` covers the walk, which advances a cursor on every step. -/
def showUnifiedDiffOps (oldContent newContent : String) : List DiffOp :=
  if splitLines oldContent = splitLines newContent then []
  else
    diffWalkF (splitLines oldContent) (splitLines newContent)
      (lcsAt (splitLines oldContent) (splitLines newContent))
      ((splitLines oldContent).length + (splitLines newContent).length) 0 0

/-- Rendering of one edit-script line (colour escapes omitted). -/
def renderDiffOp : DiffOp → String
  | .del l => "-" ++ l ++ "\n"
  | .add l => "+" ++ l ++ "\n"

/-- The bytes printed by `MiniGit::showUnifiedDiff` (lines 56-91), colour
escapes omitted: empty when the split line sequences are equal, otherwise
the three header lines, the edit script and a final blank line. -/
def showUnifiedDiff (filename oldContent newContent : String) : String :=
  if splitLines oldContent = splitLines newContent then ""
  else
    "diff --git a/" ++ filename ++ " b/" ++ filename ++ "\n" ++
      "--- a/" ++ filename ++ "\n" ++ "+++ b/" ++ filename ++ "\n" ++
      String.join ((showUnifiedDiffOps oldContent newContent).map renderDiffOp) ++ "\n"

/-- Number of `+` lines in an edit script. -/
def countAdds : List DiffOp → Nat
  | [] => 0
  | .add _ :: rest => countAdds rest + 1
  | .del _ :: rest => countAdds rest

/-- Number of `-` lines in an edit script. -/
def countDels : List DiffOp → Nat
  | [] => 0
  | .del _ :: rest => countDels rest + 1
  | .add _ :: rest => countDels rest

/-- Claim C10 (confirmed): the diff generator compares contents only as
newline-split line sequences, so two byte strings with the same split —
for example two non-empty contents differing only by a trailing newline —
produce no output at all. -/
theorem diff_same_lines_no_output (filename oldContent newContent : String)
    (h : splitLines oldContent = splitLines newContent) :
    showUnifiedDiff filename oldContent newContent = "" := by
  simp [showUnifiedDiff, h]

/-- Witness for the C10 theorem: `a` and `a\n` split into the same single
line, so their diff is empty. -/
theorem diff_same_lines_no_output_witness :
    showUnifiedDiff "a.txt" "a" "a\n" = "" :=
  diff_same_lines_no_output "a.txt" "a" "a\n" (by decide)

/-- Claim C7 is false on the code: inserting the single line `c` into
`a\nb` (giving `a\nc\nb`) makes the walk emit one `-` line and two `+`
lines, because at the mismatch the prefix-table comparison
`lcs[i][j+1] ≥ lcs[i+1][j]` holds (1 ≥ 1) and the unchanged line `b` is
deleted and re-added; the claimed output of exactly one `+` line and no
`-` line does not occur. -/
theorem diff_insertion_not_minimal :
    countAdds (showUnifiedDiffOps "a\nb" "a\nc\nb") = 2 ∧
      countDels (showUnifiedDiffOps "a\nb" "a\nc\nb") = 1 := by
  decide

theorem diffWalkF_count (a b : List String) (lcs : Nat → Nat → Nat)
    (fuel i j : Nat) (hfuel : (a.length - i) + (b.length - j) ≤ fuel) :
    countAdds (diffWalkF a b lcs fuel i j) + (a.length - i) =
      countDels (diffWalkF a b lcs fuel i j) + (b.length - j) := by
  induction fuel generalizing i j with
  | zero =>
    simp only [diffWalkF, countAdds, countDels]
    omega
  | succ f ih =>
    by_cases h1 : i < a.length ∨ j < b.length
    · by_cases h2 : i < a.length ∧ j < b.length ∧ a.getD i "" = b.getD j ""
      · rw [diffWalkF, if_pos h1, if_pos h2]
        have hrec := ih (i + 1) (j + 1) (by omega)
        omega
      · by_cases h3 : i < a.length ∧ (¬ j < b.length ∨ lcs (i + 1) j ≤ lcs i (j + 1))
        · rw [diffWalkF, if_pos h1, if_neg h2, if_pos h3]
          have hi : i < a.length := h3.1
          have hrec := ih (i + 1) j (by omega)
          simp only [countAdds, countDels]
          omega
        · have hj : j < b.length := by
            by_cases hi : i < a.length
            · rcases not_and_or.1 h3 with hc | hc
              · exact absurd hi hc
              · rcases not_or.1 hc with ⟨hjn, _⟩
                exact not_not.1 hjn
            · rcases h1 with hc | hc
              · exact absurd hc hi
              · exact hc
          rw [diffWalkF, if_pos h1, if_neg h2, if_neg h3]
          have hrec := ih i (j + 1) (by omega)
          simp only [countAdds, countDels]
          omega
    · rw [diffWalkF, if_neg h1]
      simp only [countAdds, countDels]
      omega

/-- Claim C7 (amended): when the new content's line sequence is the old
content's line sequence with exactly one line inserted, the emitted edit
script contains exactly one more `+`-prefixed line than `-`-prefixed lines
(the code's walk over the prefix LCS table may delete and re-add unchanged
lines, so `-` lines can occur, but the counts always differ by one). -/
theorem diff_insertion_plus_count (oldContent newContent : String)
    (k : Nat) (x : String)
    (hins : splitLines newContent =
      (splitLines oldContent).take k ++ x :: (splitLines oldContent).drop k) :
    countAdds (showUnifiedDiffOps oldContent newContent) =
      countDels (showUnifiedDiffOps oldContent newContent) + 1 := by
  have hlen : (splitLines newContent).length = (splitLines oldContent).length + 1 := by
    rw [hins]
    simp only [List.length_append, List.length_cons, List.length_take, List.length_drop]
    omega
  have hne : ¬ splitLines oldContent = splitLines newContent := by
    intro h
    rw [← h] at hlen
    omega
  have hcount := diffWalkF_count (splitLines oldContent) (splitLines newContent)
    (lcsAt (splitLines oldContent) (splitLines newContent))
    ((splitLines oldContent).length + (splitLines newContent).length) 0 0 (by omega)
  simp only [showUnifiedDiffOps, if_neg hne]
  omega

/-- Witness for the amended C7 theorem at the one-line insertion
`a\nb → a\nc\nb`: two `+` lines and one `-` line, differing by one. -/
theorem diff_insertion_plus_count_witness :
    countAdds (showUnifiedDiffOps "a\nb" "a\nc\nb") =
      countDels (showUnifiedDiffOps "a\nb" "a\nc\nb") + 1 :=
  diff_insertion_plus_count "a\nb" "a\nc\nb" 1 "c" (by decide)

/-! ## C6: `MiniGit::findCommonAncestor` -/

/-- Iterated parent lookup: the OID reached after at most `fuel` parent
steps, stopping at the empty OID (the root's parent). -/
def churn (parent : String → String) : Nat → String → String
  | 0, oid => oid
  | f + 1, oid => if oid = "" then "" else churn parent f (parent oid)

/-- The parent chain of `oid` reaches the empty OID within `fuel` steps. -/
def terminatesIn (parent : String → String) (fuel : Nat) (oid : String) : Prop :=
  churn parent fuel oid = ""

/-- The ancestor chain collected by the first loop of
`MiniGit::findCommonAncestor` (lines 559-565): the OID itself inclusive,
following parent links towards the root. -/
def parentChain (parent : String → String) : Nat → String → List String
  | 0, _ => []
  | f + 1, oid => if oid = "" then [] else oid :: parentChain parent f (parent oid)

/-- The second loop of `MiniGit::findCommonAncestor` (lines 567-573): walk
the second commit's chain and return the first OID contained in the first
commit's ancestor set; empty when the chain is exhausted. -/
def walkFind (parent : String → String) (anc : List String) :
    Nat → String → String
  | 0, _ => ""
  | f + 1, oid =>
    if oid = "" then ""
    else if oid ∈ anc then oid
    else walkFind parent anc f (parent oid)

/-- `MiniGit::findCommonAncestor` (lines 556-575), with an explicit fuel
bound on both loops; on chains that terminate within the fuel, the bound is
never the reason a walk stops. -/
def findCommonAncestor (parent : String → String) (fuel : Nat)
    (commit1 commit2 : String) : String :=
  if commit1 = "" ∨ commit2 = "" then ""
  else walkFind parent (parentChain parent fuel commit1) fuel commit2

theorem churn_empty_oid (parent : String → String) (f : Nat) :
    churn parent f "" = "" := by
  cases f <;> simp [churn]

theorem terminatesIn_succ (parent : String → String) (f : Nat) (oid : String)
    (h : terminatesIn parent f oid) : terminatesIn parent (f + 1) oid := by
  induction f generalizing oid with
  | zero =>
    have he : oid = "" := h
    simp [terminatesIn, churn, he]
  | succ g ih =>
    by_cases he : oid = ""
    · simp [terminatesIn, churn, he]
    · have h' : terminatesIn parent g (parent oid) := by
        simpa [terminatesIn, churn, he] using h
      have h2 := ih (parent oid) h'
      simpa [terminatesIn, churn, he] using h2

theorem parentChain_empty_oid (parent : String → String) (f : Nat) :
    parentChain parent f "" = [] := by
  cases f <;> simp [parentChain]

theorem parentChain_succ_unfold (parent : String → String) (f : Nat) (oid : String)
    (he : oid ≠ "") :
    parentChain parent (f + 1) oid = oid :: parentChain parent f (parent oid) := by
  rw [parentChain, if_neg he]

theorem parentChain_succ_of_terminates (parent : String → String) (f : Nat)
    (oid : String) (h : terminatesIn parent f oid) :
    parentChain parent (f + 1) oid = parentChain parent f oid := by
  induction f generalizing oid with
  | zero =>
    have he : oid = "" := h
    simp [he, parentChain_empty_oid]
  | succ g ih =>
    by_cases he : oid = ""
    · simp [he, parentChain_empty_oid]
    · have h' : terminatesIn parent g (parent oid) := by
        simpa [terminatesIn, churn, he] using h
      rw [parentChain_succ_unfold parent (g + 1) oid he,
        parentChain_succ_unfold parent g oid he, ih (parent oid) h']

theorem terminates_of_mem_parentChain (parent : String → String) (f : Nat)
    (oid x : String) (h : terminatesIn parent f oid)
    (hx : x ∈ parentChain parent f oid) : terminatesIn parent f x := by
  induction f generalizing oid with
  | zero => simp [parentChain] at hx
  | succ g ih =>
    by_cases he : oid = ""
    · simp [he, parentChain_empty_oid] at hx
    · simp only [parentChain, if_neg he, List.mem_cons] at hx
      rcases hx with rfl | hx
      · exact h
      · have h' : terminatesIn parent g (parent oid) := by
          simpa [terminatesIn, churn, he] using h
        exact terminatesIn_succ parent g x (ih (parent oid) h' hx)

theorem ne_empty_of_mem_parentChain (parent : String → String) (f : Nat)
    (oid x : String) (hx : x ∈ parentChain parent f oid) : x ≠ "" := by
  induction f generalizing oid with
  | zero => simp [parentChain] at hx
  | succ g ih =>
    by_cases he : oid = ""
    · simp [he, parentChain_empty_oid] at hx
    · simp only [parentChain, if_neg he, List.mem_cons] at hx
      rcases hx with rfl | hx
      · exact he
      · exact ih (parent oid) hx

theorem parentChain_cons_of_mem (parent : String → String) (f : Nat)
    (oid x : String) (hx : x ∈ parentChain parent f oid) :
    ∃ t, parentChain parent f x = x :: t := by
  cases f with
  | zero => simp [parentChain] at hx
  | succ g =>
    have hne : x ≠ "" := ne_empty_of_mem_parentChain parent (g + 1) oid x hx
    exact ⟨parentChain parent g (parent x), by simp [parentChain, if_neg hne]⟩

theorem parentChain_suffix_of_mem (parent : String → String) (f : Nat)
    (oid x : String) (h : terminatesIn parent f oid)
    (hx : x ∈ parentChain parent f oid) :
    ∃ pre, parentChain parent f oid = pre ++ parentChain parent f x ∧ x ∉ pre := by
  induction f generalizing oid with
  | zero => simp [parentChain] at hx
  | succ g ih =>
    by_cases he : oid = ""
    · simp [he, parentChain_empty_oid] at hx
    · by_cases hxo : x = oid
      · exact ⟨[], by simp [hxo], by simp⟩
      · have hx' : x ∈ parentChain parent g (parent oid) := by
          simp only [parentChain, if_neg he, List.mem_cons] at hx
          tauto
        have h' : terminatesIn parent g (parent oid) := by
          simpa [terminatesIn, churn, he] using h
        obtain ⟨pre, hpre, hnot⟩ := ih (parent oid) h' hx'
        have htx : terminatesIn parent g x :=
          terminates_of_mem_parentChain parent g (parent oid) x h' hx'
        refine ⟨oid :: pre, ?_, ?_⟩
        · rw [parentChain_succ_of_terminates parent g x htx]
          simp only [parentChain, if_neg he]
          rw [hpre]
          simp
        · intro hc
          rcases List.mem_cons.1 hc with h1 | h1
          · exact hxo h1
          · exact hnot h1

theorem parentChain_nodup (parent : String → String) (f : Nat) (oid : String)
    (h : terminatesIn parent f oid) : (parentChain parent f oid).Nodup := by
  induction f generalizing oid with
  | zero => simp [parentChain]
  | succ g ih =>
    by_cases he : oid = ""
    · simp [he, parentChain_empty_oid]
    · have h' : terminatesIn parent g (parent oid) := by
        simpa [terminatesIn, churn, he] using h
      have htail := ih (parent oid) h'
      simp only [parentChain, if_neg he, List.nodup_cons]
      refine ⟨?_, htail⟩
      intro hmem
      obtain ⟨pre, hpre, _⟩ :=
        parentChain_suffix_of_mem parent g (parent oid) oid h' hmem
      have htoid : terminatesIn parent g oid :=
        terminates_of_mem_parentChain parent g (parent oid) oid h' hmem
      cases g with
      | zero =>
        have : oid = "" := htoid
        exact he this
      | succ k =>
        have hkoid : terminatesIn parent k (parent oid) := by
          simpa [terminatesIn, churn, he] using htoid
        have hchain : parentChain parent (k + 1) oid =
            oid :: parentChain parent k (parent oid) := by
          simp [parentChain, if_neg he]
        have hcsucc : parentChain parent (k + 1) (parent oid) =
            parentChain parent k (parent oid) :=
          parentChain_succ_of_terminates parent k (parent oid) hkoid
        have hlen := congrArg List.length hpre
        rw [hchain, hcsucc] at hlen
        simp only [List.length_append, List.length_cons] at hlen
        omega

/-- First element of the second list that belongs to the first list; empty
when there is none.  This is the list form of the membership walk. -/
def findFirstIn (anc : List String) : List String → String
  | [] => ""
  | x :: xs => if x ∈ anc then x else findFirstIn anc xs

theorem walkFind_eq_findFirstIn (parent : String → String) (anc : List String)
    (f : Nat) (b : String) (h : terminatesIn parent f b) :
    walkFind parent anc f b = findFirstIn anc (parentChain parent f b) := by
  induction f generalizing b with
  | zero => simp [walkFind, parentChain, findFirstIn]
  | succ g ih =>
    by_cases he : b = ""
    · simp [he, walkFind, parentChain, findFirstIn]
    · have h' : terminatesIn parent g (parent b) := by
        simpa [terminatesIn, churn, he] using h
      simp only [walkFind, parentChain, if_neg he, findFirstIn]
      by_cases hmem : b ∈ anc
      · simp [hmem]
      · simp [hmem, ih (parent b) h']

theorem findFirstIn_eq_empty (anc l : List String) (h : ∀ x ∈ l, x ∉ anc) :
    findFirstIn anc l = "" := by
  induction l with
  | nil => rfl
  | cons x xs ih =>
    simp only [findFirstIn, if_neg (h x (by simp))]
    exact ih fun y hy => h y (by simp [hy])

theorem findFirstIn_split (anc l : List String) (hex : ∃ x ∈ l, x ∈ anc) :
    ∃ l1 l2, l = l1 ++ findFirstIn anc l :: l2 ∧ (∀ y ∈ l1, y ∉ anc) ∧
      findFirstIn anc l ∈ anc := by
  induction l with
  | nil => simp at hex
  | cons x xs ih =>
    by_cases hx : x ∈ anc
    · exact ⟨[], xs, by simp [findFirstIn, hx], by simp, by simp [findFirstIn, hx]⟩
    · have hex' : ∃ y ∈ xs, y ∈ anc := by
        rcases hex with ⟨y, hy, hya⟩
        rcases List.mem_cons.1 hy with rfl | hy'
        · exact absurd hya hx
        · exact ⟨y, hy', hya⟩
      obtain ⟨l1, l2, heq, hpre, hmem⟩ := ih hex'
      refine ⟨x :: l1, l2, ?_, ?_, ?_⟩
      · simp only [findFirstIn, if_neg hx]
        conv_lhs => rw [heq]
        simp
      · intro y hy
        rcases List.mem_cons.1 hy with rfl | hy'
        · exact hx
        · exact hpre y hy'
      · simpa [findFirstIn, hx] using hmem

theorem firstSplitEq (a : String) (s1 : List String) :
    ∀ (s2 t1 t2 : List String), s1 ++ a :: t1 = s2 ++ a :: t2 →
      a ∉ s1 → a ∉ s2 → s1 = s2 ∧ t1 = t2 := by
  induction s1 with
  | nil =>
    intro s2 t1 t2 heq _ ha2
    cases s2 with
    | nil =>
      simp only [List.nil_append, List.cons.injEq] at heq
      exact ⟨rfl, heq.2⟩
    | cons b s2' =>
      simp only [List.nil_append, List.cons_append, List.cons.injEq] at heq
      exact absurd (by simp [heq.1]) ha2
  | cons c s1' ih =>
    intro s2 t1 t2 heq ha1 ha2
    cases s2 with
    | nil =>
      simp only [List.cons_append, List.nil_append, List.cons.injEq] at heq
      exact absurd (by simp [heq.1]) ha1
    | cons b s2' =>
      simp only [List.cons_append, List.cons.injEq] at heq
      obtain ⟨h12, h34⟩ := ih s2' t1 t2 heq.2
        (fun hc => ha1 (List.mem_cons_of_mem _ hc))
        (fun hc => ha2 (List.mem_cons_of_mem _ hc))
      exact ⟨by rw [heq.1, h12], h34⟩

theorem not_mem_of_nodup_split (a : String) (l1 l2 : List String)
    (h : (l1 ++ a :: l2).Nodup) : a ∉ l1 ∧ a ∉ l2 := by
  rw [List.nodup_append] at h
  obtain ⟨_, h2, hdisj⟩ := h
  constructor
  · intro hc
    exact hdisj hc (List.mem_cons_self a l2)
  · intro hc
    exact (List.nodup_cons.1 h2).1 hc

theorem findFirstIn_chain_comm (parent : String → String) (f : Nat) (a b : String)
    (ha : terminatesIn parent f a) (hb : terminatesIn parent f b) :
    findFirstIn (parentChain parent f a) (parentChain parent f b) =
      findFirstIn (parentChain parent f b) (parentChain parent f a) := by
  by_cases hex : ∃ x ∈ parentChain parent f b, x ∈ parentChain parent f a
  · obtain ⟨B1, B2, hBeq, hB1, hcA⟩ := findFirstIn_split _ _ hex
    have hexA : ∃ x ∈ parentChain parent f a, x ∈ parentChain parent f b := by
      rcases hex with ⟨x, hxb, hxa⟩
      exact ⟨x, hxa, hxb⟩
    obtain ⟨A1, A2, hAeq, hA1, hdB⟩ := findFirstIn_split _ _ hexA
    set c := findFirstIn (parentChain parent f a) (parentChain parent f b) with hcdef
    set d := findFirstIn (parentChain parent f b) (parentChain parent f a) with hddef
    have hcB : c ∈ parentChain parent f b := by rw [hBeq]; simp
    have hdA : d ∈ parentChain parent f a := by rw [hAeq]; simp
    obtain ⟨preB, hpreB, hcpreB⟩ := parentChain_suffix_of_mem parent f b c hb hcB
    obtain ⟨preA, hpreA, hcpreA⟩ := parentChain_suffix_of_mem parent f a c ha hcA
    obtain ⟨tailc, htailc⟩ := parentChain_cons_of_mem parent f b c hcB
    have hBmerge : B1 = preB ∧ B2 = tailc :=
      firstSplitEq c B1 preB B2 tailc
        (by rw [← hBeq, hpreB, htailc])
        (fun hc1 => hB1 c hc1 hcA) hcpreB
    have hdBsplit : d ∈ B1 ∨ d = c ∨ d ∈ B2 := by
      rw [hBeq] at hdB
      simpa using hdB
    have hdnB1 : d ∉ B1 := fun hc1 => hB1 d hc1 hdA
    rcases hdBsplit with hcase | hcase | hcase
    · exact absurd hcase hdnB1
    · exact hcase.symm
    · have hdtail : d ∈ tailc := hBmerge.2 ▸ hcase
      obtain ⟨T1, T2, hT⟩ := List.append_of_mem hdtail
      have hAeq2 : parentChain parent f a = (preA ++ c :: T1) ++ d :: T2 := by
        rw [hpreA, htailc, hT]
        simp
      have hnodupA := parentChain_nodup parent f a ha
      have h1 := not_mem_of_nodup_split d A1 A2 (by rw [← hAeq]; exact hnodupA)
      have h2 := not_mem_of_nodup_split d (preA ++ c :: T1) T2
        (by rw [← hAeq2]; exact hnodupA)
      have hfin := firstSplitEq d A1 (preA ++ c :: T1) A2 T2
        (by rw [← hAeq, hAeq2]) h1.1 h2.1
      have hcA1 : c ∈ A1 := by rw [hfin.1]; simp
      exact absurd hcB (hA1 c hcA1)
  · have hnA : ∀ x ∈ parentChain parent f b, x ∉ parentChain parent f a := by
      intro x hx hxa
      exact hex ⟨x, hx, hxa⟩
    have hnB : ∀ x ∈ parentChain parent f a, x ∉ parentChain parent f b := by
      intro x hx hxb
      exact hex ⟨x, hxb, hx⟩
    rw [findFirstIn_eq_empty _ _ hnA, findFirstIn_eq_empty _ _ hnB]

/-- Claim C6 (confirmed): the nearest-common-ancestor computation is
symmetric — for any two commit OIDs whose parent chains terminate within
the fuel, computing the ancestor set of the first and walking the second
returns the same OID as the other way round.  This relies on parents being
a function (single-parent commits), which forces any two chains through a
common OID to share their whole suffix. -/
theorem findCommonAncestor_comm (parent : String → String) (fuel : Nat)
    (a b : String) (ha : terminatesIn parent fuel a)
    (hb : terminatesIn parent fuel b) :
    findCommonAncestor parent fuel a b = findCommonAncestor parent fuel b a := by
  by_cases he : a = "" ∨ b = ""
  · rw [findCommonAncestor, if_pos he, findCommonAncestor, if_pos (Or.symm he)]
  · rw [findCommonAncestor, if_neg he, findCommonAncestor,
      if_neg (fun hc => he (Or.symm hc))]
    rw [walkFind_eq_findFirstIn parent _ fuel b hb,
      walkFind_eq_findFirstIn parent _ fuel a ha]
    exact findFirstIn_chain_comm parent fuel a b ha hb

/-- Parent map for the C6 witness: `c1 ← c2 ← c3` on one branch and
`c1 ← b2` on the other. -/
def exParentC6 : String → String :=
  fun oid =>
    if oid = "c3" then "c2"
    else if oid = "c2" then "c1"
    else if oid = "b2" then "c1"
    else ""

/-- Witness for the C6 theorem: both orders return the fork point `c1`. -/
theorem findCommonAncestor_comm_witness :
    findCommonAncestor exParentC6 5 "c3" "b2" =
      findCommonAncestor exParentC6 5 "b2" "c3" :=
  findCommonAncestor_comm exParentC6 5 "c3" "b2"
    (by show churn exParentC6 5 "c3" = ""; rfl)
    (by show churn exParentC6 5 "b2" = ""; rfl)
